import Mathlib

/-!
# Verification of the `normalize` WAV loudness normalizer

This file gives a shallow embedding of the loudness-normalization engine of
the `normalize` program (`normalize.go`, function `normalizeWavFile`, plus the
older variant of the same function kept alongside the README) and proves or
refutes the frozen specification claims about it.

Modelling conventions:
* int16 values are `ℤ` together with explicit two's-complement wrapping
  (`wrapI16`); the Go int16 negation `-sample`, which wraps at `-32768`, is
  `negI16`.
* The unsigned 64-bit accumulator `sum` is a `ℕ` reduced `% 2^64` at every
  addition, exactly as the Go `uint64` addition does.
* `float64` arithmetic is modelled exactly over `ℚ` (`resolveScale`,
  `rewriteSample`).  Every concrete trace appearing in a theorem below stays
  on values where `float64` arithmetic is itself exact, so the idealization is
  faithful there.  The one code path where IEEE special values arise (division
  by a zero `absSum`) is additionally modelled faithfully with an explicit
  `GFloat` type carrying `±∞` and `NaN` (`resolveScaleF`).
* Go's `float64 → int16` conversion truncates toward zero (`truncQ`); for
  out-of-range arguments the Go specification leaves the result
  implementation-specific, and the mainstream gc compiler wraps, which is what
  `wrapI16` after `truncQ` models.  All proved bounds stay in range, where the
  conversion is fully specified.
* Files are byte lists (`List ℕ`); the sample region starts at offset 44 and
  is processed in 4096-byte chunks exactly as the Go read/write loops do.
-/

/-- Two's-complement wrap of an integer into the int16 range
`[-32768, 32767]` (what the gc compiler does on narrowing conversions). -/
def wrapI16 (x : ℤ) : ℤ := (x + 32768) % 65536 - 32768

/-- Go int16 negation `-x`: two's-complement negation, which wraps at
`-32768` (`negI16 (-32768) = -32768`). -/
def negI16 (x : ℤ) : ℤ := wrapI16 (-x)

/-- Go conversion of an int16 value to `uint64`: sign-extend, then
reinterpret, i.e. reduce modulo `2^64`. -/
def toU64 (x : ℤ) : ℕ := (x % (2 ^ 64 : ℤ)).toNat

/-- Go `float64 → integer` conversion: truncation toward zero. -/
def truncQ (q : ℚ) : ℤ := if 0 ≤ q then ⌊q⌋ else ⌈q⌉

/-- Decode a little-endian `uint16` (already reduced mod `2^16`) as int16,
as Go's `int16(binary.LittleEndian.Uint16(...))` does. -/
def i16ofU16 (u : ℕ) : ℤ := if u < 32768 then (u : ℤ) else (u : ℤ) - 65536

/-- `binary.LittleEndian.PutUint16` of `uint16(sample)`: the two bytes of the
sample's two's-complement representation, low byte first. -/
def encodeSample (s : ℤ) : List ℕ := [(s % 65536).toNat % 256, (s % 65536).toNat / 256]

/-- Decode a byte list into int16 samples, two little-endian bytes per
sample (the per-chunk decoding loop `for i := 0; i < n; i += 2`). -/
def decodeSamples : List ℕ → List ℤ
  | lo :: hi :: rest => i16ofU16 ((lo + 256 * hi) % 65536) :: decodeSamples rest
  | _ => []

/-- The mathematical sum of the absolute values of the samples (what the
spec calls the accumulated `absSum`). -/
def mathAbsSum (xs : List ℤ) : ℕ := (xs.map Int.natAbs).sum

/-- The true maximum absolute sample value of a stream (`0` for the empty
stream). -/
def maxAbs (xs : List ℤ) : ℕ := xs.foldr (fun s m => max s.natAbs m) 0

/-- One iteration of the analyzer loop body of `normalizeWavFile`
(normalize.go lines 222–237): state is `(count, sum, min, max)`;
`sum += uint64(-sample)` / `uint64(sample)` with `uint64` wrap-around,
running min/max comparison, `count++`. -/
def stepStats (st : ℕ × ℕ × ℤ × ℤ) (s : ℤ) : ℕ × ℕ × ℤ × ℤ :=
  match st with
  | (count, sum, mn, mx) =>
    (count + 1,
     (sum + toU64 (if s < 0 then negI16 s else s)) % 2 ^ 64,
     if s < mn then s else mn,
     if s > mx then s else mx)

/-- The Amplitude Analyzer on a decoded sample stream: fold of `stepStats`
from the zero-initialized accumulators (`var sum uint64; min, max int16;
count int` — all seeded at `0`). -/
def analyzeSamples (xs : List ℤ) : ℕ × ℕ × ℤ × ℤ := xs.foldl stepStats (0, 0, 0, 0)

/-- The peak the Scale Resolver computes (normalize.go lines 250–252):
`if -min > max { max = -min }` with int16 negation. -/
def peakI16 (mn mx : ℤ) : ℤ := if negI16 mn > mx then negI16 mn else mx

/-- The Scale Resolver (normalize.go lines 249–257), with `float64`
arithmetic modelled exactly over `ℚ`:
`avg := float64(count) / float64(sum)`; `if -min > max { max = -min }`;
`maxScale := 32767.0 / float64(max)`; `scale := scaleFactor * avg`;
`if scale > maxScale { scale = maxScale }`.
(ℚ makes `x / 0 = 0`; the IEEE-faithful model of the `sum = 0` and
`peak = 0` paths is `resolveScaleF` below.) -/
def resolveScale (count sum : ℕ) (mn mx : ℤ) (scaleFactor : ℚ) : ℚ :=
  let avg : ℚ := (count : ℚ) / (sum : ℚ)
  let peak : ℤ := peakI16 mn mx
  let maxScale : ℚ := 32767 / (peak : ℚ)
  let scale := scaleFactor * avg
  if scale > maxScale then maxScale else scale

/-- The Sample Rewriter's per-sample update (normalize.go lines 277–283):
`int16(float64(sample)*scale - 0.5)` for negative samples,
`int16(float64(sample)*scale + 0.5)` otherwise — truncation toward zero,
then the int16 narrowing. -/
def rewriteSample (scale : ℚ) (s : ℤ) : ℤ :=
  wrapI16 (if s < 0 then truncQ ((s : ℚ) * scale - 1 / 2) else truncQ ((s : ℚ) * scale + 1 / 2))

/-- The whole two-pass engine at sample granularity: analyze the stream,
resolve the scale, rewrite every sample with it. -/
def normalizeSamples (xs : List ℤ) (scaleFactor : ℚ) : List ℤ :=
  let a := analyzeSamples xs
  xs.map (rewriteSample (resolveScale a.1 a.2.1 a.2.2.1 a.2.2.2 scaleFactor))

/-- The FormatError message both passes report on an odd byte count. -/
def oddMsg : String := "read odd number of bytes in int16 sample stream"

/-- The analyzer pass over the raw sample-region bytes, 4096-byte chunks at
a time (the first `for` loop of `normalizeWavFile`): each chunk's byte count
is checked for oddness before its samples are decoded and accumulated. -/
def analyzeLoop (bytes : List ℕ) (st : ℕ × ℕ × ℤ × ℤ) : Except String (ℕ × ℕ × ℤ × ℤ) :=
  if bytes = [] then .ok st
  else
    let chunk := bytes.take 4096
    if chunk.length % 2 = 1 then .error oddMsg
    else analyzeLoop (bytes.drop 4096) ((decodeSamples chunk).foldl stepStats st)
termination_by bytes.length
decreasing_by
  have hb : 0 < bytes.length := List.length_pos.mpr (by assumption)
  simp [List.length_drop]
  omega

/-- The rewriter's per-chunk byte transformation: each 2-byte little-endian
sample is decoded, rewritten, and written back in place (the inner loop at
normalize.go lines 276–284).  Only called on even-length chunks; a stray
trailing byte is returned untouched so the function is total. -/
def rewriteChunk (scale : ℚ) : List ℕ → List ℕ
  | lo :: hi :: rest =>
      encodeSample (rewriteSample scale (i16ofU16 ((lo + 256 * hi) % 65536))) ++
        rewriteChunk scale rest
  | other => other

/-- The rewriter pass (the second loop of `normalizeWavFile`): chunks are
read, rewritten and written back at the offset they were read from.  The
result is the final content of the sample region together with the error,
if any: on an odd chunk the error is raised before that chunk is written,
so the already-written prefix stays rewritten and the rest stays as read. -/
def rewriteLoop (scale : ℚ) (bytes : List ℕ) : List ℕ × Option String :=
  if bytes = [] then ([], none)
  else
    let chunk := bytes.take 4096
    if chunk.length % 2 = 1 then (bytes, some oddMsg)
    else
      let r := rewriteLoop scale (bytes.drop 4096)
      (rewriteChunk scale chunk ++ r.1, r.2)
termination_by bytes.length
decreasing_by
  have hb : 0 < bytes.length := List.length_pos.mpr (by assumption)
  simp [List.length_drop]
  omega

/-- `normalizeWavFile` (normalize.go lines 192–296) on a file given as a
byte list: seek to offset 44, analyze the sample stream, resolve the scale,
seek back and rewrite in place.  Returns the resulting file content and the
`(changed, error)` outcome (`Except.ok changed`). -/
def normalizeWavFile (file : List ℕ) (scaleFactor : ℚ) : List ℕ × Except String Bool :=
  match analyzeLoop (file.drop 44) (0, 0, 0, 0) with
  | .error e => (file, .error e)
  | .ok (count, sum, mn, mx) =>
    match rewriteLoop (resolveScale count sum mn mx scaleFactor) (file.drop 44) with
    | (data2, some e) => (file.take 44 ++ data2, .error e)
    | (data2, none) => (file.take 44 ++ data2, .ok true)

/-- The older variant of `normalizeWavFile` kept in the repository next to
the README (no min/max tracking, constant `scaleFactor = 1400`, and a
tolerance band: `if 0.9 < scale && scale < 1.1 { return false, nil }`
before the rewrite pass).  The shared `analyzeLoop` additionally computes
min/max, which this variant simply ignores. -/
def normalizeWavFileOld (file : List ℕ) : List ℕ × Except String Bool :=
  match analyzeLoop (file.drop 44) (0, 0, 0, 0) with
  | .error e => (file, .error e)
  | .ok (count, sum, _, _) =>
    if 9 / 10 < 1400 * (count : ℚ) / (sum : ℚ) ∧ 1400 * (count : ℚ) / (sum : ℚ) < 11 / 10 then
      (file, .ok false)
    else
      match rewriteLoop (1400 * (count : ℚ) / (sum : ℚ)) (file.drop 44) with
      | (data2, some e) => (file.take 44 ++ data2, .error e)
      | (data2, none) => (file.take 44 ++ data2, .ok true)

/-- A `float64` value with the IEEE-754 special values that matter for the
silent-stream code path: `NaN`, signed infinities, and finite values
(modelled exactly as rationals). -/
inductive GFloat where
  | nan : GFloat
  | inf : Bool → GFloat
  | fin : ℚ → GFloat
deriving DecidableEq

/-- IEEE `float64` multiplication on `GFloat` (finite arithmetic exact;
`0 * ∞ = NaN`; `NaN` propagates). -/
def gfMul : GFloat → GFloat → GFloat
  | .nan, _ => .nan
  | _, .nan => .nan
  | .inf s, .inf t => .inf (s == t)
  | .inf s, .fin q => if q = 0 then .nan else if 0 < q then .inf s else .inf !s
  | .fin q, .inf s => if q = 0 then .nan else if 0 < q then .inf s else .inf !s
  | .fin a, .fin b => .fin (a * b)

/-- IEEE `float64` division on `GFloat`: a nonzero finite value divided by
(positive) zero is a signed infinity, `0/0` is `NaN`. -/
def gfDiv : GFloat → GFloat → GFloat
  | .nan, _ => .nan
  | _, .nan => .nan
  | .inf _, .inf _ => .nan
  | .inf s, .fin q => if 0 ≤ q then .inf s else .inf !s
  | .fin _, .inf _ => .fin 0
  | .fin a, .fin b =>
      if b = 0 then (if a = 0 then .nan else if 0 < a then .inf true else .inf false)
      else .fin (a / b)

/-- IEEE `float64` addition on `GFloat`. -/
def gfAdd : GFloat → GFloat → GFloat
  | .nan, _ => .nan
  | _, .nan => .nan
  | .inf s, .inf t => if s = t then .inf s else .nan
  | .inf s, .fin _ => .inf s
  | .fin _, .inf s => .inf s
  | .fin a, .fin b => .fin (a + b)

/-- IEEE `float64` subtraction on `GFloat`. -/
def gfSub : GFloat → GFloat → GFloat
  | .nan, _ => .nan
  | _, .nan => .nan
  | .inf s, .inf t => if s = !t then .inf s else .nan
  | .inf s, .fin _ => .inf s
  | .fin _, .inf s => .inf !s
  | .fin a, .fin b => .fin (a - b)

/-- IEEE `float64` strict greater-than on `GFloat`: every comparison
involving `NaN` is false. -/
def gfGt : GFloat → GFloat → Bool
  | .nan, _ => false
  | _, .nan => false
  | .inf s, .inf t => s && !t
  | .inf s, .fin _ => s
  | .fin _, .inf t => !t
  | .fin a, .fin b => decide (b < a)

/-- The Scale Resolver (normalize.go lines 249–257) with the IEEE special
values modelled: the faithful account of `avg := float64(count) /
float64(sum)` when `sum = 0` and of `maxScale := 32767.0 / float64(max)`
when the computed peak is `0`. -/
def resolveScaleF (count sum : ℕ) (mn mx : ℤ) (scaleFactor : GFloat) : GFloat :=
  let avg := gfDiv (.fin (count : ℚ)) (.fin (sum : ℚ))
  let peak : ℤ := peakI16 mn mx
  let maxScale := gfDiv (.fin 32767) (.fin (peak : ℚ))
  let scale := gfMul scaleFactor avg
  if gfGt scale maxScale then maxScale else scale

/-- The `float64` value the rewriter computes for one sample before the
int16 conversion (normalize.go lines 278–282), on `GFloat`. -/
def rewriteValF (scale : GFloat) (s : ℤ) : GFloat :=
  if s < 0 then gfSub (gfMul (.fin (s : ℚ)) scale) (.fin (1 / 2))
  else gfAdd (gfMul (.fin (s : ℚ)) scale) (.fin (1 / 2))

/-! ## Basic facts about the int16 / uint64 primitives -/

lemma wrapI16_eq_self {x : ℤ} (h1 : -32768 ≤ x) (h2 : x ≤ 32767) : wrapI16 x = x := by
  unfold wrapI16
  have : (x + 32768) % 65536 = x + 32768 := Int.emod_eq_of_lt (by omega) (by omega)
  omega

lemma negI16_eq {x : ℤ} (h1 : -32768 < x) (h2 : x ≤ 32767) : negI16 x = -x := by
  unfold negI16
  exact wrapI16_eq_self (by omega) (by omega)

lemma toU64_eq {x : ℤ} (h1 : 0 ≤ x) (h2 : x < 2 ^ 64) : toU64 x = x.toNat := by
  unfold toU64
  rw [Int.emod_eq_of_lt h1 (by exact_mod_cast h2)]

/-- The per-sample contribution to the analyzer's `sum` is the mathematical
absolute value as long as the sample is not `-32768`. -/
lemma contrib_eq {s : ℤ} (h1 : -32768 < s) (h2 : s ≤ 32767) :
    toU64 (if s < 0 then negI16 s else s) = s.natAbs := by
  by_cases hs : s < 0
  · rw [if_pos hs, negI16_eq h1 h2, toU64_eq (by omega) (by omega)]
    omega
  · rw [if_neg hs, toU64_eq (by omega) (by omega)]
    omega

lemma truncQ_of_nonneg {q : ℚ} (h : 0 ≤ q) : truncQ q = ⌊q⌋ := by
  unfold truncQ
  exact if_pos h

lemma truncQ_of_neg {q : ℚ} (h : q < 0) : truncQ q = ⌈q⌉ := by
  unfold truncQ
  exact if_neg (by exact not_le.mpr h)

/-! ## Characterizing the analyzer fold -/

/-- The min/max components of the analyzer fold are plain `min`/`max`
folds. -/
lemma foldl_stepStats_minmax (xs : List ℤ) :
    ∀ c su mn mx, (xs.foldl stepStats (c, su, mn, mx)).2.2.1 = xs.foldl min mn ∧
      (xs.foldl stepStats (c, su, mn, mx)).2.2.2 = xs.foldl max mx := by
  induction xs with
  | nil => intro c su mn mx; simp
  | cons s xs ih =>
    intro c su mn mx
    have hmin : (if s < mn then s else mn) = min mn s := by
      rcases lt_or_le s mn with h | h
      · rw [if_pos h, min_eq_right h.le]
      · rw [if_neg (not_lt.mpr h), min_eq_left h]
    have hmax : (if s > mx then s else mx) = max mx s := by
      rcases lt_or_le mx s with h | h
      · rw [if_pos h, max_eq_right h.le]
      · rw [if_neg (not_lt.mpr h), max_eq_left h]
    simpa [stepStats, hmin, hmax] using
      ih (c + 1) ((su + toU64 (if s < 0 then negI16 s else s)) % 2 ^ 64) (min mn s) (max mx s)

lemma foldl_stepStats_count (xs : List ℤ) :
    ∀ c su mn mx, (xs.foldl stepStats (c, su, mn, mx)).1 = c + xs.length := by
  induction xs with
  | nil => intro c su mn mx; simp
  | cons s xs ih =>
    intro c su mn mx
    simp only [List.foldl_cons, stepStats, List.length_cons]
    rw [ih]
    omega

/-- With every sample strictly above `-32768` and no `uint64` wrap-around,
the analyzer's `sum` is the mathematical sum of absolute values. -/
lemma foldl_stepStats_sum (xs : List ℤ) :
    ∀ c su mn mx, (∀ s ∈ xs, -32768 < s ∧ s ≤ 32767) → su + mathAbsSum xs < 2 ^ 64 →
      (xs.foldl stepStats (c, su, mn, mx)).2.1 = su + mathAbsSum xs := by
  induction xs with
  | nil => intro c su mn mx _ _; simp [mathAbsSum]
  | cons s xs ih =>
    intro c su mn mx hr hlt
    have hs := hr s (by simp)
    have habs : mathAbsSum (s :: xs) = s.natAbs + mathAbsSum xs := by
      simp [mathAbsSum]
    simp only [List.foldl_cons, stepStats]
    rw [contrib_eq hs.1 hs.2, Nat.mod_eq_of_lt (by omega)]
    rw [ih _ _ _ _ (fun t ht => hr t (List.mem_cons_of_mem _ ht)) (by omega)]
    omega

lemma foldl_min_le_init (xs : List ℤ) : ∀ mn : ℤ, xs.foldl min mn ≤ mn := by
  induction xs with
  | nil => intro mn; simp
  | cons s xs ih =>
    intro mn
    simpa using le_trans (ih (min mn s)) (min_le_left mn s)

lemma foldl_min_le_mem (xs : List ℤ) : ∀ mn : ℤ, ∀ s ∈ xs, xs.foldl min mn ≤ s := by
  induction xs with
  | nil => intro mn s hs; simp at hs
  | cons t xs ih =>
    intro mn s hs
    rcases List.mem_cons.mp hs with h | h
    · subst h
      simpa using le_trans (foldl_min_le_init xs (min mn s)) (min_le_right mn s)
    · simpa using ih (min mn t) s h

lemma foldl_min_mem (xs : List ℤ) : ∀ mn : ℤ, xs.foldl min mn = mn ∨ xs.foldl min mn ∈ xs := by
  induction xs with
  | nil => intro mn; simp
  | cons t xs ih =>
    intro mn
    have hfold : List.foldl min mn (t :: xs) = List.foldl min (min mn t) xs := by simp
    rcases ih (min mn t) with h | h
    · rcases le_or_lt mn t with hc | hc
      · left
        rw [hfold, h]
        exact min_eq_left hc
      · right
        rw [hfold, h, min_eq_right hc.le]
        simp
    · right
      rw [hfold]
      exact List.mem_cons_of_mem t h

lemma le_foldl_max_init (xs : List ℤ) : ∀ mx : ℤ, mx ≤ xs.foldl max mx := by
  induction xs with
  | nil => intro mx; simp
  | cons s xs ih =>
    intro mx
    simpa using le_trans (le_max_left mx s) (ih (max mx s))

lemma le_foldl_max_mem (xs : List ℤ) : ∀ mx : ℤ, ∀ s ∈ xs, s ≤ xs.foldl max mx := by
  induction xs with
  | nil => intro mx s hs; simp at hs
  | cons t xs ih =>
    intro mx s hs
    rcases List.mem_cons.mp hs with h | h
    · subst h
      simpa using le_trans (le_max_right mx s) (le_foldl_max_init xs (max mx s))
    · simpa using ih (max mx t) s h

lemma foldl_max_mem (xs : List ℤ) : ∀ mx : ℤ, xs.foldl max mx = mx ∨ xs.foldl max mx ∈ xs := by
  induction xs with
  | nil => intro mx; simp
  | cons t xs ih =>
    intro mx
    have hfold : List.foldl max mx (t :: xs) = List.foldl max (max mx t) xs := by simp
    rcases ih (max mx t) with h | h
    · rcases le_or_lt t mx with hc | hc
      · left
        rw [hfold, h]
        exact max_eq_left hc
      · right
        rw [hfold, h, max_eq_right hc.le]
        simp
    · right
      rw [hfold]
      exact List.mem_cons_of_mem t h

/-! ## Facts about `maxAbs` and `mathAbsSum` -/

lemma le_maxAbs {xs : List ℤ} {s : ℤ} (hs : s ∈ xs) : s.natAbs ≤ maxAbs xs := by
  induction xs with
  | nil => simp at hs
  | cons t xs ih =>
    rcases List.mem_cons.mp hs with h | h
    · subst h; simp [maxAbs]
    · simp only [maxAbs, List.foldr_cons]
      exact le_trans (ih h) (le_max_right _ _)

lemma maxAbs_cases (xs : List ℤ) : maxAbs xs = 0 ∨ ∃ s ∈ xs, s.natAbs = maxAbs xs := by
  induction xs with
  | nil => left; simp [maxAbs]
  | cons t xs ih =>
    simp only [maxAbs, List.foldr_cons]
    rcases le_or_lt (xs.foldr (fun s m => max s.natAbs m) 0) t.natAbs with hc | hc
    · right
      exact ⟨t, by simp, (max_eq_left hc).symm⟩
    · rw [max_eq_right hc.le]
      rcases ih with h | ⟨s, hs, heq⟩
      · left; exact h
      · right; exact ⟨s, List.mem_cons_of_mem t hs, heq⟩

lemma natAbs_le_mathAbsSum {xs : List ℤ} {s : ℤ} (hs : s ∈ xs) : s.natAbs ≤ mathAbsSum xs := by
  induction xs with
  | nil => simp at hs
  | cons t xs ih =>
    rcases List.mem_cons.mp hs with h | h
    · subst h; simp [mathAbsSum]
    · have hx := ih h
      simp only [mathAbsSum, List.map_cons, List.sum_cons] at hx ⊢
      omega

/-! ## The analyzer's results, componentwise -/

lemma analyzeSamples_count (xs : List ℤ) : (analyzeSamples xs).1 = xs.length := by
  simpa using foldl_stepStats_count xs 0 0 0 0

lemma analyzeSamples_sum (xs : List ℤ) (hr : ∀ s ∈ xs, -32768 < s ∧ s ≤ 32767)
    (hlt : mathAbsSum xs < 2 ^ 64) : (analyzeSamples xs).2.1 = mathAbsSum xs := by
  simpa using foldl_stepStats_sum xs 0 0 0 0 hr (by omega)

lemma analyzeSamples_min (xs : List ℤ) : (analyzeSamples xs).2.2.1 = xs.foldl min 0 :=
  (foldl_stepStats_minmax xs 0 0 0 0).1

lemma analyzeSamples_max (xs : List ℤ) : (analyzeSamples xs).2.2.2 = xs.foldl max 0 :=
  (foldl_stepStats_minmax xs 0 0 0 0).2

/-- Core of the implicit peak claim: despite the zero seeding of min/max,
the resolver's computed peak is the true maximum absolute sample value —
provided no sample is `-32768` (where the int16 negation would wrap). -/
lemma peak_eq_maxAbs (xs : List ℤ) (hr : ∀ s ∈ xs, -32768 < s ∧ s ≤ 32767) :
    peakI16 (analyzeSamples xs).2.2.1 (analyzeSamples xs).2.2.2 = (maxAbs xs : ℤ) := by
  rw [analyzeSamples_min, analyzeSamples_max]
  have hmn0 : xs.foldl min 0 ≤ 0 := foldl_min_le_init xs 0
  have hmx0 : (0 : ℤ) ≤ xs.foldl max 0 := le_foldl_max_init xs 0
  have hmnlb : -32768 < xs.foldl min 0 := by
    rcases foldl_min_mem xs 0 with h | h
    · omega
    · exact (hr _ h).1
  have hneg : negI16 (xs.foldl min 0) = -(xs.foldl min 0) := negI16_eq hmnlb (by omega)
  have hpeak : peakI16 (xs.foldl min 0) (xs.foldl max 0) =
      max (xs.foldl max 0) (-(xs.foldl min 0)) := by
    unfold peakI16
    rw [hneg]
    rcases lt_or_le (xs.foldl max 0) (-(xs.foldl min 0)) with h | h
    · rw [if_pos h, max_eq_right h.le]
    · rw [if_neg (not_lt.mpr h), max_eq_left h]
  rw [hpeak]
  apply le_antisymm
  · apply max_le
    · rcases foldl_max_mem xs 0 with h | h
      · rw [h]; exact_mod_cast Nat.zero_le _
      · have h1 : (xs.foldl max 0).natAbs ≤ maxAbs xs := le_maxAbs h
        omega
    · rcases foldl_min_mem xs 0 with h | h
      · rw [h]; simp
      · have h1 : (xs.foldl min 0).natAbs ≤ maxAbs xs := le_maxAbs h
        omega
  · rcases maxAbs_cases xs with h | ⟨s, hs, heq⟩
    · rw [h]
      exact le_trans hmx0 (le_max_left _ _)
    · have h1 : s ≤ xs.foldl max 0 := le_foldl_max_mem xs 0 s hs
      have h2 : xs.foldl min 0 ≤ s := foldl_min_le_mem xs 0 s hs
      rw [← heq]
      rcases le_or_lt 0 s with hsgn | hsgn
      · have hcast : (s.natAbs : ℤ) = s := by omega
        rw [hcast]
        exact le_max_of_le_left h1
      · have hcast : (s.natAbs : ℤ) = -s := by omega
        rw [hcast]
        exact le_max_of_le_right (by omega)

/-! ## The resolver as a minimum, and the rewrite bound -/

/-- The resolver's `if scale > maxScale { scale = maxScale }` is exactly a
minimum. -/
lemma resolveScale_eq_min (count sum : ℕ) (mn mx : ℤ) (t : ℚ) :
    resolveScale count sum mn mx t =
      min (t * ((count : ℚ) / (sum : ℚ))) (32767 / (peakI16 mn mx : ℚ)) := by
  unfold resolveScale
  rcases lt_or_le (32767 / (peakI16 mn mx : ℚ)) (t * ((count : ℚ) / (sum : ℚ))) with h | h
  · rw [if_pos h, min_eq_right h.le]
  · rw [if_neg (not_lt.mpr h), min_eq_left h]

lemma resolveScale_le_cap (count sum : ℕ) (mn mx : ℤ) (t : ℚ) :
    resolveScale count sum mn mx t ≤ 32767 / (peakI16 mn mx : ℚ) := by
  rw [resolveScale_eq_min]
  exact min_le_right _ _

lemma resolveScale_pos {count sum : ℕ} {mn mx : ℤ} {t : ℚ} (hc : 0 < count) (hsu : 0 < sum)
    (hpk : 0 < peakI16 mn mx) (ht : 0 < t) : 0 < resolveScale count sum mn mx t := by
  rw [resolveScale_eq_min]
  apply lt_min
  · apply mul_pos ht
    apply div_pos
    · exact_mod_cast hc
    · exact_mod_cast hsu
  · apply div_pos (by norm_num)
    exact_mod_cast hpk

/-- If the scale is positive and honors the clipping cap for a true peak
bounding the sample, the rewritten sample stays within `±32767` (and in
particular the int16 narrowing does not wrap). -/
lemma rewriteSample_natAbs_le {scale : ℚ} {s peak : ℤ} (hs1 : -peak ≤ s) (hs2 : s ≤ peak)
    (hpos : 0 < scale) (hcap : scale * (peak : ℚ) ≤ 32767) :
    (rewriteSample scale s).natAbs ≤ 32767 := by
  have hps : ((s : ℚ)) ≤ (peak : ℚ) := by exact_mod_cast hs2
  have hps2 : (-(peak : ℚ)) ≤ (s : ℚ) := by exact_mod_cast hs1
  have hsc1 : (s : ℚ) * scale ≤ (peak : ℚ) * scale := mul_le_mul_of_nonneg_right hps hpos.le
  have hsc2 : -((peak : ℚ) * scale) ≤ (s : ℚ) * scale := by
    have := mul_le_mul_of_nonneg_right hps2 hpos.le
    linarith
  have hub : (peak : ℚ) * scale ≤ 32767 := by linarith [hcap]
  unfold rewriteSample
  by_cases hs : s < 0
  · rw [if_pos hs]
    have hq : (s : ℚ) * scale - 1 / 2 < 0 := by
      have hsneg : (s : ℚ) ≤ 0 := by exact_mod_cast hs.le
      nlinarith
    rw [truncQ_of_neg hq]
    have hlo : (-32768 : ℚ) < (s : ℚ) * scale - 1 / 2 := by linarith
    have hlo2 : (-32768 : ℤ) < ⌈(s : ℚ) * scale - 1 / 2⌉ := by
      rw [Int.lt_ceil]
      exact_mod_cast hlo
    have hhi : ⌈(s : ℚ) * scale - 1 / 2⌉ ≤ 0 := by
      rw [Int.ceil_le]
      exact_mod_cast hq.le
    rw [wrapI16_eq_self (by omega) (by omega)]
    omega
  · rw [if_neg hs]
    have hs0 : (0 : ℚ) ≤ (s : ℚ) := by exact_mod_cast not_lt.mp hs
    have hq0 : (0 : ℚ) ≤ (s : ℚ) * scale + 1 / 2 := by nlinarith
    rw [truncQ_of_nonneg hq0]
    have hlo : (0 : ℤ) ≤ ⌊(s : ℚ) * scale + 1 / 2⌋ := Int.floor_nonneg.mpr hq0
    have hhi : ⌊(s : ℚ) * scale + 1 / 2⌋ < 32768 := by
      rw [Int.floor_lt]
      push_cast
      linarith
    rw [wrapI16_eq_self (by omega) (by omega)]
    omega

/-- `mathAbsSum` is positive exactly when some sample is nonzero; zero
`maxAbs` forces zero `mathAbsSum`. -/
lemma mathAbsSum_eq_zero_of_maxAbs_eq_zero {xs : List ℤ} (h : maxAbs xs = 0) :
    mathAbsSum xs = 0 := by
  induction xs with
  | nil => simp [mathAbsSum]
  | cons t xs ih =>
    simp only [maxAbs, List.foldr_cons, Nat.max_eq_zero_iff] at h
    have := ih (by simpa [maxAbs] using h.2)
    simp only [mathAbsSum, List.map_cons, List.sum_cons] at this ⊢
    omega

lemma maxAbs_pos_of_mathAbsSum_pos {xs : List ℤ} (h : 0 < mathAbsSum xs) : 0 < maxAbs xs := by
  rcases Nat.eq_zero_or_pos (maxAbs xs) with hz | hp
  · have := mathAbsSum_eq_zero_of_maxAbs_eq_zero hz
    omega
  · exact hp

lemma length_pos_of_mathAbsSum_pos {xs : List ℤ} (h : 0 < mathAbsSum xs) : 0 < xs.length := by
  cases xs with
  | nil => simp [mathAbsSum] at h
  | cons t xs => simp

/-- C9, also needed for the no-clipping and resolver claims. -/
lemma analyzeSamples_peak (xs : List ℤ) (hr : ∀ s ∈ xs, -32768 < s ∧ s ≤ 32767) :
    peakI16 (analyzeSamples xs).2.2.1 (analyzeSamples xs).2.2.2 = (maxAbs xs : ℤ) :=
  peak_eq_maxAbs xs hr

/-- C9: for every sample stream whose samples are all strictly greater
than `-32768`, the peak the resolver computes as `max(maxSample,
-minSample)` — with min/max seeded at `0` — equals the true maximum
absolute sample value of the stream, also for all-positive or all-negative
streams. -/
theorem C9_peak_correct (xs : List ℤ) (hr : ∀ s ∈ xs, -32768 < s ∧ s ≤ 32767) :
    peakI16 (analyzeSamples xs).2.2.1 (analyzeSamples xs).2.2.2 = (maxAbs xs : ℤ) :=
  peak_eq_maxAbs xs hr

/-- Witness for C9 at the concrete stream `[-5, 3]` (an instance where the
peak comes from the negative side): the computed peak is `maxAbs [-5, 3]`. -/
theorem C9_peak_correct_witness :
    peakI16 (analyzeSamples [-5, 3]).2.2.1 (analyzeSamples [-5, 3]).2.2.2 =
      (maxAbs [-5, 3] : ℤ) :=
  C9_peak_correct [-5, 3] (by decide)

/-- C1 (amended): the no-clipping invariant holds for every stream whose
samples all exceed `-32768`, with a positive scale target and an absolute
sum that is nonzero and does not wrap the 64-bit accumulator: every output
sample of the two-pass engine has absolute value at most `32767`.  (The
unamended claim, quantifying over all inputs, is refuted by
`C1_no_clipping_counterexample`.) -/
theorem C1_no_clipping (xs : List ℤ) (t : ℚ) (ht : 0 < t)
    (hr : ∀ s ∈ xs, -32768 < s ∧ s ≤ 32767)
    (hnz : 0 < mathAbsSum xs) (hlt : mathAbsSum xs < 2 ^ 64) :
    ∀ y ∈ normalizeSamples xs t, y.natAbs ≤ 32767 := by
  intro y hy
  unfold normalizeSamples at hy
  simp only [List.mem_map] at hy
  obtain ⟨x, hx, rfl⟩ := hy
  have hsum : (analyzeSamples xs).2.1 = mathAbsSum xs := analyzeSamples_sum xs hr hlt
  have hcount : (analyzeSamples xs).1 = xs.length := analyzeSamples_count xs
  have hpeak := analyzeSamples_peak xs hr
  have hpk : 0 < maxAbs xs := maxAbs_pos_of_mathAbsSum_pos hnz
  have hpkq : (0 : ℚ) < (maxAbs xs : ℚ) := by exact_mod_cast hpk
  have hscale : 0 < resolveScale (analyzeSamples xs).1 (analyzeSamples xs).2.1
      (analyzeSamples xs).2.2.1 (analyzeSamples xs).2.2.2 t := by
    apply resolveScale_pos _ _ _ ht
    · rw [hcount]; exact length_pos_of_mathAbsSum_pos hnz
    · rw [hsum]; exact hnz
    · rw [hpeak]; exact_mod_cast hpk
  have hcap := resolveScale_le_cap (analyzeSamples xs).1 (analyzeSamples xs).2.1
      (analyzeSamples xs).2.2.1 (analyzeSamples xs).2.2.2 t
  rw [hpeak] at hcap
  have hpkq2 : (0 : ℚ) < ((maxAbs xs : ℤ) : ℚ) := by exact_mod_cast hpk
  have hcap2 : resolveScale (analyzeSamples xs).1 (analyzeSamples xs).2.1
      (analyzeSamples xs).2.2.1 (analyzeSamples xs).2.2.2 t * ((maxAbs xs : ℤ) : ℚ) ≤ 32767 := by
    rw [le_div_iff₀ hpkq2] at hcap
    exact hcap
  have hxb : x.natAbs ≤ maxAbs xs := le_maxAbs hx
  exact rewriteSample_natAbs_le (by omega) (by omega) hscale hcap2

/-- Witness for C1 (amended) at the stream `[300, -100]` with target
`3200`: the output sample `4800` (the rewrite of `300` at the resolved
scale `16`) stays within `±32767`. -/
theorem C1_no_clipping_witness :
    (4800 : ℤ) ∈ normalizeSamples [300, -100] 3200 ∧ (4800 : ℤ).natAbs ≤ 32767 := by
  have hmem : (4800 : ℤ) ∈ normalizeSamples [300, -100] 3200 := by
    have h1 : analyzeSamples [300, -100] = (2, 400, -100, 300) := by
      simp [analyzeSamples, stepStats, toU64, negI16, wrapI16]
    have h2 : resolveScale 2 400 (-100) 300 3200 = 16 := by
      simp [resolveScale, peakI16, negI16, wrapI16]
      norm_num
    unfold normalizeSamples
    rw [h1]
    norm_num [h2]
    left
    simp [rewriteSample, truncQ, wrapI16]
    norm_num
  exact ⟨hmem,
    C1_no_clipping [300, -100] 3200 (by norm_num) (by decide) (by decide) (by decide) _ hmem⟩

/-- C1 counterexample: on the input stream `[-32768, 32767, 2]` the
`uint64` absolute-value accumulation of `-32768` wraps, `sum` becomes `1`,
the resolved scale becomes the (mis-computed) clipping ceiling
`32767/32767 = 1`, and the output still contains the sample `-32768`,
whose absolute value `32768` exceeds `32767` — the claim quantifying over
*every* input stream is false. -/
theorem C1_no_clipping_counterexample :
    normalizeSamples [-32768, 32767, 2] 3200 = [-32768, 32767, 2] ∧
    (-32768 : ℤ) ∈ normalizeSamples [-32768, 32767, 2] 3200 ∧
    32767 < (-32768 : ℤ).natAbs := by
  have h1 : analyzeSamples [-32768, 32767, 2] = (3, 1, -32768, 32767) := by
    simp [analyzeSamples, stepStats, toU64, negI16, wrapI16]
  have h2 : resolveScale 3 1 (-32768) 32767 3200 = 1 := by
    simp [resolveScale, peakI16, negI16, wrapI16]
    norm_num
  have hc : ⌈-((65537 : ℚ) / 2)⌉ = -32768 := by
    rw [Int.ceil_eq_iff]
    norm_num
  have hmain : normalizeSamples [-32768, 32767, 2] 3200 = [-32768, 32767, 2] := by
    unfold normalizeSamples
    rw [h1]
    norm_num [h2]
    refine ⟨?_, ?_, ?_⟩
    · simp [rewriteSample, truncQ, wrapI16]
      norm_num [hc]
    · simp [rewriteSample, truncQ, wrapI16]
      norm_num
    · simp [rewriteSample, truncQ, wrapI16]
      norm_num
  refine ⟨hmain, ?_, by norm_num⟩
  rw [hmain]
  simp

/-- C2: the analyzer's `absSum` accumulator at the failing input
`[-32768]`: the Go int16 negation of `-32768` wraps to `-32768`, whose
`uint64` conversion is `2^64 - 32768 = 18446744073709518848`, not the
mathematical absolute sum `32768` — the code contradicts its own comment
("We sum the absolute values of the samples"). -/
theorem C2_absSum_bug_eval :
    (analyzeSamples [-32768]).2.1 = 18446744073709518848 ∧
    mathAbsSum [-32768] = 32768 ∧
    (analyzeSamples [-32768]).2.1 ≠ mathAbsSum [-32768] := by
  refine ⟨?_, ?_, ?_⟩
  · simp [analyzeSamples, stepStats, toU64, negI16, wrapI16]
  · simp [mathAbsSum]
  · simp [analyzeSamples, stepStats, toU64, negI16, wrapI16, mathAbsSum]

/-- C4 counterexample: for the analysis result of `[-32768, 32767, 2]`
(absSum `= 1 > 0`, nonzero samples present) the resolver does *not* return
`min(scaleTarget*count/absSum, 32767/max(maxSample, -minSample))` with the
mathematical negation: the code's int16 `-min` wraps to `-32768`, so the
code caps with `32767/32767 = 1` while the claimed formula gives
`32767/32768`. -/
theorem C4_resolver_formula_counterexample :
    analyzeSamples [-32768, 32767, 2] = (3, 1, -32768, 32767) ∧
    resolveScale 3 1 (-32768) 32767 3200 ≠
      min ((3200 : ℚ) * 3 / 1) (32767 / ((max (32767 : ℤ) (-(-32768)) : ℤ) : ℚ)) := by
  constructor
  · simp [analyzeSamples, stepStats, toU64, negI16, wrapI16]
  · have h2 : resolveScale 3 1 (-32768) 32767 3200 = 1 := by
      simp [resolveScale, peakI16, negI16, wrapI16]
      norm_num
    rw [h2]
    norm_num [min_def]

/-- C4 (amended): for a positive scale target and the analysis of a stream
with at least one nonzero sample, all samples strictly above `-32768`, and
no 64-bit wrap of the absolute sum, the resolver returns exactly
`min(scaleTarget*count/absSum, 32767/peak)` — where `peak` is the true
maximum absolute sample value, which under these hypotheses equals
`max(maxSample, -minSample)` — and this scale is strictly positive. -/
theorem C4_resolver_formula (xs : List ℤ) (t : ℚ) (ht : 0 < t)
    (hr : ∀ s ∈ xs, -32768 < s ∧ s ≤ 32767)
    (hnz : 0 < mathAbsSum xs) (hlt : mathAbsSum xs < 2 ^ 64) :
    resolveScale (analyzeSamples xs).1 (analyzeSamples xs).2.1 (analyzeSamples xs).2.2.1
        (analyzeSamples xs).2.2.2 t =
      min (t * (xs.length : ℚ) / (mathAbsSum xs : ℚ)) (32767 / (maxAbs xs : ℚ)) ∧
    0 < resolveScale (analyzeSamples xs).1 (analyzeSamples xs).2.1 (analyzeSamples xs).2.2.1
        (analyzeSamples xs).2.2.2 t := by
  have hsum : (analyzeSamples xs).2.1 = mathAbsSum xs := analyzeSamples_sum xs hr hlt
  have hcount : (analyzeSamples xs).1 = xs.length := analyzeSamples_count xs
  have hpeak := analyzeSamples_peak xs hr
  have hpk : 0 < maxAbs xs := maxAbs_pos_of_mathAbsSum_pos hnz
  constructor
  · rw [resolveScale_eq_min, hsum, hcount, hpeak, mul_div_assoc]
    norm_num
  · apply resolveScale_pos _ _ _ ht
    · rw [hcount]; exact length_pos_of_mathAbsSum_pos hnz
    · rw [hsum]; exact hnz
    · rw [hpeak]; exact_mod_cast hpk

/-- Witness for C4 (amended) at the stream `[10, -20]` with target `3200`:
the resolver returns `min(3200*2/30, 32767/20)` and it is positive. -/
theorem C4_resolver_formula_witness :
    resolveScale (analyzeSamples [10, -20]).1 (analyzeSamples [10, -20]).2.1
        (analyzeSamples [10, -20]).2.2.1 (analyzeSamples [10, -20]).2.2.2 3200 =
      min ((3200 : ℚ) * (([10, -20] : List ℤ).length : ℚ) / (mathAbsSum [10, -20] : ℚ))
        (32767 / (maxAbs [10, -20] : ℚ)) ∧
    0 < resolveScale (analyzeSamples [10, -20]).1 (analyzeSamples [10, -20]).2.1
        (analyzeSamples [10, -20]).2.2.1 (analyzeSamples [10, -20]).2.2.2 3200 :=
  C4_resolver_formula [10, -20] 3200 (by norm_num) (by decide) (by decide) (by decide)

/-- C5: the spec's worked scenario — eight samples of `100` with scale
target `1400`: the analysis yields `count = 8`, `absSum = 800`, the
resolved scale is `14` (the ceiling `32767/100` does not cap it), and all
rewritten samples are exactly `1400`. -/
theorem C5_worked_scenario :
    analyzeSamples (List.replicate 8 100) = (8, 800, 0, 100) ∧
    resolveScale 8 800 0 100 1400 = 14 ∧
    normalizeSamples (List.replicate 8 100) 1400 = List.replicate 8 1400 := by
  have h1 : analyzeSamples (List.replicate 8 100) = (8, 800, 0, 100) := by
    simp [analyzeSamples, List.replicate, stepStats, toU64]
  have h2 : resolveScale 8 800 0 100 1400 = 14 := by
    simp [resolveScale, peakI16, negI16, wrapI16]
    norm_num
  refine ⟨h1, h2, ?_⟩
  unfold normalizeSamples
  rw [h1]
  norm_num [h2]
  simp [List.replicate, rewriteSample, truncQ, wrapI16]
  norm_num

/-! ## Round-trip bounds for the Sample Rewriter -/

/-- Per-sample round trip, negative case: rewriting `x < 0` with scale
`s ≥ 1` gives `⌈x*s - 1/2⌉`, in `[-32767, -1]`, provided
`|x|*s + 1/2 ≤ 32767`. -/
lemma rewrite_neg_case {s : ℚ} {x : ℤ} (hs : 1 ≤ s) (hx : x < 0)
    (hb : (x.natAbs : ℚ) * s + 1 / 2 ≤ 32767) :
    rewriteSample s x = ⌈(x : ℚ) * s - 1 / 2⌉ ∧
    -32767 ≤ ⌈(x : ℚ) * s - 1 / 2⌉ ∧ ⌈(x : ℚ) * s - 1 / 2⌉ < 0 ∧
    (x : ℚ) * s - 1 / 2 ≤ (⌈(x : ℚ) * s - 1 / 2⌉ : ℚ) ∧
    ((⌈(x : ℚ) * s - 1 / 2⌉ : ℤ) : ℚ) < (x : ℚ) * s + 1 / 2 := by
  have hs0 : (0 : ℚ) < s := lt_of_lt_of_le one_pos hs
  have hxq : (x : ℚ) ≤ -1 := by
    have h : x ≤ -1 := by omega
    exact_mod_cast h
  have habs : (x.natAbs : ℚ) = -(x : ℚ) := by
    rw [Int.cast_natAbs, abs_of_neg hx]
    push_cast
    ring
  have hq1 : (x : ℚ) * s - 1 / 2 < 0 := by nlinarith
  have hylo : (x : ℚ) * s - 1 / 2 ≤ (⌈(x : ℚ) * s - 1 / 2⌉ : ℚ) := Int.le_ceil _
  have hyhi : ((⌈(x : ℚ) * s - 1 / 2⌉ : ℤ) : ℚ) < (x : ℚ) * s + 1 / 2 := by
    have := Int.ceil_lt_add_one ((x : ℚ) * s - 1 / 2)
    linarith
  have hyneg : ⌈(x : ℚ) * s - 1 / 2⌉ < 0 := by
    have hc : ((⌈(x : ℚ) * s - 1 / 2⌉ : ℤ) : ℚ) < 0 := by nlinarith
    exact_mod_cast hc
  have hyb1 : -32767 ≤ ⌈(x : ℚ) * s - 1 / 2⌉ := by
    have h1 : (-32767 : ℚ) ≤ (x : ℚ) * s - 1 / 2 := by nlinarith
    have h2 : (-32767 : ℚ) ≤ ((⌈(x : ℚ) * s - 1 / 2⌉ : ℤ) : ℚ) := le_trans h1 hylo
    exact_mod_cast h2
  refine ⟨?_, hyb1, hyneg, hylo, hyhi⟩
  unfold rewriteSample
  rw [if_pos hx, truncQ_of_neg hq1]
  exact wrapI16_eq_self (by omega) (by omega)

/-- Per-sample round trip, nonnegative case: rewriting `0 ≤ x` with scale
`s ≥ 1` gives `⌊x*s + 1/2⌋`, in `[0, 32767]`, provided
`|x|*s + 1/2 ≤ 32767`. -/
lemma rewrite_nonneg_case {s : ℚ} {x : ℤ} (hs : 1 ≤ s) (hx : ¬x < 0)
    (hb : (x.natAbs : ℚ) * s + 1 / 2 ≤ 32767) :
    rewriteSample s x = ⌊(x : ℚ) * s + 1 / 2⌋ ∧
    0 ≤ ⌊(x : ℚ) * s + 1 / 2⌋ ∧ ⌊(x : ℚ) * s + 1 / 2⌋ ≤ 32767 ∧
    (x : ℚ) * s - 1 / 2 < ((⌊(x : ℚ) * s + 1 / 2⌋ : ℤ) : ℚ) ∧
    ((⌊(x : ℚ) * s + 1 / 2⌋ : ℤ) : ℚ) ≤ (x : ℚ) * s + 1 / 2 := by
  have hs0 : (0 : ℚ) < s := lt_of_lt_of_le one_pos hs
  have hxq : (0 : ℚ) ≤ (x : ℚ) := by exact_mod_cast not_lt.mp hx
  have habs : (x.natAbs : ℚ) = (x : ℚ) := by
    rw [Int.cast_natAbs, abs_of_nonneg (not_lt.mp hx)]
  have hq1 : (0 : ℚ) ≤ (x : ℚ) * s + 1 / 2 := by nlinarith
  have hynn : 0 ≤ ⌊(x : ℚ) * s + 1 / 2⌋ := Int.floor_nonneg.mpr hq1
  have hyhi : ((⌊(x : ℚ) * s + 1 / 2⌋ : ℤ) : ℚ) ≤ (x : ℚ) * s + 1 / 2 := Int.floor_le _
  have hylo : (x : ℚ) * s - 1 / 2 < ((⌊(x : ℚ) * s + 1 / 2⌋ : ℤ) : ℚ) := by
    have := Int.sub_one_lt_floor ((x : ℚ) * s + 1 / 2)
    linarith
  have hyb : ⌊(x : ℚ) * s + 1 / 2⌋ ≤ 32767 := by
    have h1 : (x : ℚ) * s + 1 / 2 ≤ 32767 := by nlinarith
    have h2 : ((⌊(x : ℚ) * s + 1 / 2⌋ : ℤ) : ℚ) ≤ 32767 := le_trans hyhi h1
    exact_mod_cast h2
  refine ⟨?_, hynn, hyb, hylo, hyhi⟩
  unfold rewriteSample
  rw [if_neg hx, truncQ_of_nonneg hq1]
  exact wrapI16_eq_self (by omega) (by omega)

/-- Second-pass rewrite with a scale in `(0, 1]` keeps a sample already in
`[-32767, 32767]` inside that range, and equals the floor/ceil expression
directly (no int16 wrap). -/
lemma rewrite_small_scale {c : ℚ} {y : ℤ} (hc0 : 0 < c) (hc1 : c ≤ 1)
    (hyl : -32767 ≤ y) (hyh : y ≤ 32767) :
    rewriteSample c y =
      (if y < 0 then ⌈(y : ℚ) * c - 1 / 2⌉ else ⌊(y : ℚ) * c + 1 / 2⌋) ∧
    -32767 ≤ rewriteSample c y ∧ rewriteSample c y ≤ 32767 := by
  by_cases hy : y < 0
  · have hyq : (y : ℚ) < 0 := by exact_mod_cast hy
    have hyql : (-32767 : ℚ) ≤ (y : ℚ) := by exact_mod_cast hyl
    have hq : (y : ℚ) * c - 1 / 2 < 0 := by nlinarith
    have hmul : (y : ℚ) ≤ (y : ℚ) * c := by
      nlinarith [mul_nonneg (neg_nonneg.mpr hyq.le) (sub_nonneg.mpr hc1)]
    have hlo : (-32768 : ℚ) < (y : ℚ) * c - 1 / 2 := by linarith
    have hlo2 : (-32767 : ℤ) ≤ ⌈(y : ℚ) * c - 1 / 2⌉ := by
      have h2 : (-32768 : ℤ) < ⌈(y : ℚ) * c - 1 / 2⌉ := by
        rw [Int.lt_ceil]
        push_cast
        exact hlo
      omega
    have hhi : ⌈(y : ℚ) * c - 1 / 2⌉ ≤ (0 : ℤ) := by
      rw [Int.ceil_le]
      push_cast
      exact hq.le
    have hval : rewriteSample c y = ⌈(y : ℚ) * c - 1 / 2⌉ := by
      unfold rewriteSample
      rw [if_pos hy, truncQ_of_neg hq]
      exact wrapI16_eq_self (by omega) (by omega)
    rw [hval, if_pos hy]
    exact ⟨rfl, hlo2, by omega⟩
  · have hyq : (0 : ℚ) ≤ (y : ℚ) := by exact_mod_cast not_lt.mp hy
    have hyqh : (y : ℚ) ≤ 32767 := by exact_mod_cast hyh
    have hq : (0 : ℚ) ≤ (y : ℚ) * c + 1 / 2 := by nlinarith
    have hnn : 0 ≤ ⌊(y : ℚ) * c + 1 / 2⌋ := Int.floor_nonneg.mpr hq
    have hhi : ⌊(y : ℚ) * c + 1 / 2⌋ ≤ 32767 := by
      have h1 : (y : ℚ) * c + 1 / 2 < 32768 := by nlinarith
      have h2 : ⌊(y : ℚ) * c + 1 / 2⌋ < (32768 : ℤ) := by
        rw [Int.floor_lt]
        push_cast
        exact h1
      omega
    have hval : rewriteSample c y = ⌊(y : ℚ) * c + 1 / 2⌋ := by
      unfold rewriteSample
      rw [if_neg hy, truncQ_of_nonneg hq]
      exact wrapI16_eq_self (by omega) (by omega)
    rw [hval, if_neg hy]
    exact ⟨rfl, by omega, hhi⟩

/-- Per-sample round trip: rewriting with scale `s ≥ 1` and then with
`1/s` lands within `±1` of the original sample, with the intermediate and
final values inside `±32767`, provided `|x|*s + 1/2 ≤ 32767`. -/
lemma roundTrip_sample {s : ℚ} {x : ℤ} (hs : 1 ≤ s)
    (hb : (x.natAbs : ℚ) * s + 1 / 2 ≤ 32767) :
    (rewriteSample s x).natAbs ≤ 32767 ∧
    (rewriteSample s⁻¹ (rewriteSample s x)).natAbs ≤ 32767 ∧
    (rewriteSample s⁻¹ (rewriteSample s x) - x).natAbs ≤ 1 := by
  have hs0 : (0 : ℚ) < s := lt_of_lt_of_le one_pos hs
  have hsi : (0 : ℚ) < s⁻¹ := inv_pos.mpr hs0
  have hsi1 : s⁻¹ ≤ 1 := by
    rw [inv_le_one_iff₀]
    right
    exact hs
  have hss : s * s⁻¹ = 1 := mul_inv_cancel₀ (ne_of_gt hs0)
  by_cases hx : x < 0
  · obtain ⟨hy_def, hyb1, hyneg, hylo, hyhi⟩ := rewrite_neg_case hs hx hb
    obtain ⟨hz_def, hzb1, hzb2⟩ :=
      rewrite_small_scale hsi hsi1 hyb1 (by omega :
        ⌈(x : ℚ) * s - 1 / 2⌉ ≤ 32767)
    rw [if_pos hyneg] at hz_def
    have hxq : (x : ℚ) ≤ -1 := by
      have h : x ≤ -1 := by omega
      exact_mod_cast h
    have hcast : ((⌈(x : ℚ) * s - 1 / 2⌉ : ℤ) : ℚ) = (⌈(x : ℚ) * s - 1 / 2⌉ : ℚ) := rfl
    have hzlo : (x - 1 : ℤ) ≤ ⌈(⌈(x : ℚ) * s - 1 / 2⌉ : ℚ) * s⁻¹ - 1 / 2⌉ := by
      have h1 : ((x - 1 : ℤ) : ℚ) ≤ (⌈(x : ℚ) * s - 1 / 2⌉ : ℚ) * s⁻¹ - 1 / 2 := by
        push_cast
        nlinarith
      exact_mod_cast le_trans h1 (Int.le_ceil _)
    have hzhi : ⌈(⌈(x : ℚ) * s - 1 / 2⌉ : ℚ) * s⁻¹ - 1 / 2⌉ ≤ x := by
      rw [Int.ceil_le]
      nlinarith
    rw [hy_def, hz_def]
    refine ⟨by omega, by omega, by omega⟩
  · obtain ⟨hy_def, hynn, hyb, hylo, hyhi⟩ := rewrite_nonneg_case hs hx hb
    obtain ⟨hz_def, hzb1, hzb2⟩ :=
      rewrite_small_scale hsi hsi1 (by omega : -32767 ≤ ⌊(x : ℚ) * s + 1 / 2⌋) hyb
    rw [if_neg (not_lt.mpr hynn)] at hz_def
    have hxq : (0 : ℚ) ≤ (x : ℚ) := by exact_mod_cast not_lt.mp hx
    have hzlo : x ≤ ⌊(⌊(x : ℚ) * s + 1 / 2⌋ : ℚ) * s⁻¹ + 1 / 2⌋ := by
      rw [Int.le_floor]
      nlinarith
    have hzhi : ⌊(⌊(x : ℚ) * s + 1 / 2⌋ : ℚ) * s⁻¹ + 1 / 2⌋ ≤ x + 1 := by
      have h1 : (⌊(x : ℚ) * s + 1 / 2⌋ : ℚ) * s⁻¹ + 1 / 2 ≤ ((x + 1 : ℤ) : ℚ) := by
        push_cast
        nlinarith
      have h2 : (⌊(⌊(x : ℚ) * s + 1 / 2⌋ : ℚ) * s⁻¹ + 1 / 2⌋ : ℚ) ≤ ((x + 1 : ℤ) : ℚ) :=
        le_trans (Int.floor_le _) h1
      exact_mod_cast h2
    rw [hy_def, hz_def]
    refine ⟨by omega, by omega, by omega⟩

/-- C7 counterexample: the round-trip claim quantifies over *every* scale
`s > 0`, but at `s = 1/10` and sample `4` the first rewrite truncates to
`0` and the second (with scale `1/s = 10`) stays `0`, a deviation of `4 >
1` from the original sample. -/
theorem C7_round_trip_counterexample :
    (0 : ℚ) < 1 / 10 ∧
    rewriteSample (1 / 10) 4 = 0 ∧
    rewriteSample ((1 / 10 : ℚ))⁻¹ (rewriteSample (1 / 10) 4) = 0 ∧
    1 < (rewriteSample ((1 / 10 : ℚ))⁻¹ (rewriteSample (1 / 10) 4) - 4).natAbs := by
  have h1 : rewriteSample ((1 : ℚ) / 10) 4 = 0 := by
    simp [rewriteSample, truncQ, wrapI16]
    norm_num
  have h2 : rewriteSample ((1 / 10 : ℚ))⁻¹ 0 = 0 := by
    simp [rewriteSample, truncQ, wrapI16]
    norm_num
  refine ⟨by norm_num, h1, ?_, ?_⟩
  · rw [h1, h2]
  · rw [h1, h2]
    norm_num

/-- C7 (amended): for every sample list and every scale `s ≥ 1` such that
no sample clips in the first pass (`|x|*s + 1/2 ≤ 32767`), rewriting each
sample with `s` and then with `1/s` returns it to within `±1` of its
original value, and neither the intermediate nor the final sample leaves
the signed 16-bit range.  (The rewriter acts pointwise, so the statement
is per element of the stream; the unamended claim over all `s > 0` is
refuted by `C7_round_trip_counterexample`.) -/
theorem C7_round_trip (s : ℚ) (xs : List ℤ) (hs : 1 ≤ s)
    (hb : ∀ x ∈ xs, (x.natAbs : ℚ) * s + 1 / 2 ≤ 32767) :
    ∀ x ∈ xs, (rewriteSample s x).natAbs ≤ 32767 ∧
      (rewriteSample s⁻¹ (rewriteSample s x)).natAbs ≤ 32767 ∧
      (rewriteSample s⁻¹ (rewriteSample s x) - x).natAbs ≤ 1 :=
  fun x hx => roundTrip_sample hs (hb x hx)

/-- Witness for C7 (amended) at the stream `[100, -7]` with scale `3`:
the sample `100` (rewritten to `300`, then back to `100`) satisfies all
three bounds. -/
theorem C7_round_trip_witness :
    (rewriteSample 3 100).natAbs ≤ 32767 ∧
    (rewriteSample (3 : ℚ)⁻¹ (rewriteSample 3 100)).natAbs ≤ 32767 ∧
    (rewriteSample (3 : ℚ)⁻¹ (rewriteSample 3 100) - 100).natAbs ≤ 1 :=
  C7_round_trip 3 [100, -7] (by norm_num)
    (by
      intro x hx
      fin_cases hx <;> norm_num)
    100 (by simp)

/-! ## The silent-stream path (division by a zero absSum) -/

lemma foldl_stepStats_zeros (xs : List ℤ) (h : ∀ s ∈ xs, s = 0) :
    ∀ c : ℕ, xs.foldl stepStats (c, 0, 0, 0) = (c + xs.length, 0, 0, 0) := by
  induction xs with
  | nil => intro c; simp
  | cons t xs ih =>
    intro c
    have ht : t = 0 := h t (by simp)
    subst ht
    have hstep : stepStats (c, 0, 0, 0) 0 = (c + 1, 0, 0, 0) := by
      simp [stepStats, toU64]
    rw [List.foldl_cons, hstep, ih (fun s hs => h s (List.mem_cons_of_mem _ hs)) (c + 1)]
    simp [List.length_cons]
    omega

/-- The analyzer on a silent stream: `count` is the length, everything
else stays zero. -/
lemma analyzeSamples_zeros (xs : List ℤ) (h : ∀ s ∈ xs, s = 0) :
    analyzeSamples xs = (xs.length, 0, 0, 0) := by
  unfold analyzeSamples
  simpa using foldl_stepStats_zeros xs h 0

/-- C3 counterexample: on the silent one-sample stream `[0]` the division
by `absSum = 0` is *not* guarded — it is executed and produces `+∞`
(`avg = 1/0`), the resolved scale is `+∞`, and the value the rewriter then
computes for the sample `0` is `0 · ∞ + 0.5 = NaN`, whose int16 conversion
the Go specification leaves implementation-specific. -/
theorem C3_silent_counterexample :
    analyzeSamples [0] = (1, 0, 0, 0) ∧
    resolveScaleF 1 0 0 0 (.fin 3200) = .inf true ∧
    rewriteValF (resolveScaleF 1 0 0 0 (.fin 3200)) 0 = .nan := by
  have h1 : analyzeSamples [0] = (1, 0, 0, 0) := by
    simp [analyzeSamples, stepStats, toU64]
  have h2 : resolveScaleF 1 0 0 0 (.fin 3200) = .inf true := by
    simp [resolveScaleF, gfDiv, gfMul, gfGt, peakI16, negI16, wrapI16]
  refine ⟨h1, h2, ?_⟩
  rw [h2]
  simp [rewriteValF, gfMul, gfAdd]

/-- C3 (amended): normalization of a silent stream does not crash Go —
IEEE division by zero traps nothing — but the division by `absSum` is not
guarded: for every nonempty all-zero stream and positive scale target the
resolved scale is `+∞`, and the value the rewriter computes for every
sample is `NaN` (`0 · ∞`), whose int16 conversion the Go language
specification leaves implementation-specific (the gc compiler yields `0`,
which happens to leave the all-zero bytes unchanged). -/
theorem C3_silent_unguarded (xs : List ℤ) (t : ℚ) (hne : xs ≠ []) (hz : ∀ s ∈ xs, s = 0)
    (ht : 0 < t) :
    resolveScaleF (analyzeSamples xs).1 (analyzeSamples xs).2.1 (analyzeSamples xs).2.2.1
        (analyzeSamples xs).2.2.2 (.fin t) = .inf true ∧
    ∀ x ∈ xs, rewriteValF (.inf true) x = .nan := by
  have hz4 := analyzeSamples_zeros xs hz
  have hlen : 0 < xs.length := List.length_pos.mpr hne
  have hlq : (0 : ℚ) < (xs.length : ℚ) := by exact_mod_cast hlen
  constructor
  · rw [hz4]
    simp [resolveScaleF, peakI16, negI16, wrapI16, gfDiv, gfMul, gfGt, hlq.ne', hlq,
      ht.ne', ht]
  · intro x hx
    rw [hz x hx]
    simp [rewriteValF, gfMul, gfAdd]

/-- Witness for C3 (amended) at the silent stream `[0, 0]` with target
`1400`: the resolved scale is `+∞` and the rewriter's value for the first
sample is `NaN`. -/
theorem C3_silent_unguarded_witness :
    resolveScaleF (analyzeSamples [0, 0]).1 (analyzeSamples [0, 0]).2.1
        (analyzeSamples [0, 0]).2.2.1 (analyzeSamples [0, 0]).2.2.2 (.fin 1400) = .inf true ∧
    rewriteValF (.inf true) 0 = .nan := by
  have h := C3_silent_unguarded [0, 0] 1400 (by decide) (by decide) (by norm_num)
  exact ⟨h.1, h.2 0 (by simp)⟩

/-! ## The chunked byte loops -/

/-- On a sample region with an odd byte count the analyzer pass always
reaches an odd chunk and fails with the FormatError. -/
lemma analyzeLoop_odd : ∀ n (bytes : List ℕ) st, bytes.length = n → bytes.length % 2 = 1 →
    analyzeLoop bytes st = .error oddMsg := by
  intro n
  induction n using Nat.strong_induction_on with
  | _ n ih =>
    intro bytes st hlen hodd
    have hne : bytes ≠ [] := by
      intro hnil
      rw [hnil] at hodd
      simp at hodd
    rw [analyzeLoop, if_neg hne]
    by_cases hc : (bytes.take 4096).length % 2 = 1
    · rw [if_pos hc]
    · rw [if_neg hc]
      rw [List.length_take] at hc
      have hgt : 4096 < bytes.length := by
        rcases le_or_lt bytes.length 4096 with hle | hgt
        · exfalso
          rw [min_eq_right hle] at hc
          omega
        · exact hgt
      apply ih (bytes.length - 4096) (by omega) _ _ (by simp [List.length_drop])
      rw [List.length_drop]
      omega

/-- On an even sample region the analyzer pass always succeeds. -/
lemma analyzeLoop_even : ∀ n (bytes : List ℕ) st, bytes.length = n → bytes.length % 2 = 0 →
    ∃ r, analyzeLoop bytes st = .ok r := by
  intro n
  induction n using Nat.strong_induction_on with
  | _ n ih =>
    intro bytes st hlen hev
    by_cases hne : bytes = []
    · exact ⟨st, by rw [analyzeLoop, if_pos hne]⟩
    · rw [analyzeLoop, if_neg hne]
      have hc : ¬(bytes.take 4096).length % 2 = 1 := by
        rw [List.length_take]
        rcases le_or_lt bytes.length 4096 with hle | hgt
        · rw [min_eq_right hle]
          omega
        · rw [min_eq_left hgt.le]
          omega
      rw [if_neg hc]
      have hpos : 0 < bytes.length := List.length_pos.mpr hne
      refine ih (bytes.length - 4096) (by omega) (bytes.drop 4096) _ ?_ ?_
      · rw [List.length_drop]
      · rw [List.length_drop]
        omega

/-- Each rewritten chunk has exactly as many bytes as were read. -/
lemma rewriteChunk_length_aux (q : ℚ) :
    ∀ n (chunk : List ℕ), chunk.length ≤ n → (rewriteChunk q chunk).length = chunk.length := by
  intro n
  induction n with
  | zero =>
    intro chunk hle
    have : chunk = [] := List.length_eq_zero.mp (by omega)
    subst this
    simp [rewriteChunk]
  | succ n ih =>
    intro chunk hle
    cases chunk with
    | nil => simp [rewriteChunk]
    | cons lo rest =>
      cases rest with
      | nil => simp [rewriteChunk]
      | cons hi rest2 =>
        have h2 : rest2.length ≤ n := by
          simp at hle
          omega
        simp [rewriteChunk, encodeSample, ih rest2 h2]

lemma rewriteChunk_length (q : ℚ) (chunk : List ℕ) :
    (rewriteChunk q chunk).length = chunk.length :=
  rewriteChunk_length_aux q chunk.length chunk le_rfl

/-- The rewriter pass preserves the byte count of the sample region, on
the success and on the error path alike. -/
lemma rewriteLoop_length (q : ℚ) : ∀ n (bytes : List ℕ), bytes.length = n →
    (rewriteLoop q bytes).1.length = bytes.length := by
  intro n
  induction n using Nat.strong_induction_on with
  | _ n ih =>
    intro bytes hlen
    by_cases hne : bytes = []
    · rw [rewriteLoop, if_pos hne, hne]
    · rw [rewriteLoop, if_neg hne]
      by_cases hc : (bytes.take 4096).length % 2 = 1
      · rw [if_pos hc]
      · rw [if_neg hc]
        have hpos : 0 < bytes.length := List.length_pos.mpr hne
        have hrec : (rewriteLoop q (bytes.drop 4096)).1.length = (bytes.drop 4096).length :=
          ih (bytes.length - 4096) (by omega) _ (by rw [List.length_drop])
        simp only [List.length_append, rewriteChunk_length, hrec, List.length_take,
          List.length_drop]
        omega

/-- On an even sample region the rewriter pass reports no error. -/
lemma rewriteLoop_even (q : ℚ) : ∀ n (bytes : List ℕ), bytes.length = n →
    bytes.length % 2 = 0 → (rewriteLoop q bytes).2 = none := by
  intro n
  induction n using Nat.strong_induction_on with
  | _ n ih =>
    intro bytes hlen hev
    by_cases hne : bytes = []
    · rw [rewriteLoop, if_pos hne]
    · rw [rewriteLoop, if_neg hne]
      have hc : ¬(bytes.take 4096).length % 2 = 1 := by
        rw [List.length_take]
        rcases le_or_lt bytes.length 4096 with hle | hgt
        · rw [min_eq_right hle]
          omega
        · rw [min_eq_left hgt.le]
          omega
      rw [if_neg hc]
      have hpos : 0 < bytes.length := List.length_pos.mpr hne
      exact ih (bytes.length - 4096) (by omega) _ (by rw [List.length_drop])
        (by rw [List.length_drop]; omega)

/-- A nonempty even sample region of at most one chunk is analyzed in one
pass: the loop succeeds with the fold over its decoded samples. -/
lemma analyzeLoop_small (bytes : List ℕ) (st : ℕ × ℕ × ℤ × ℤ) (hne : bytes ≠ [])
    (hle : bytes.length ≤ 4096) (hev : bytes.length % 2 = 0) :
    analyzeLoop bytes st = .ok ((decodeSamples bytes).foldl stepStats st) := by
  rw [analyzeLoop, if_neg hne, List.take_of_length_le hle,
    if_neg (by omega), List.drop_eq_nil_of_le hle, analyzeLoop, if_pos rfl]

/-- A nonempty even sample region of at most one chunk is rewritten in one
pass. -/
lemma rewriteLoop_small (q : ℚ) (bytes : List ℕ) (hne : bytes ≠ [])
    (hle : bytes.length ≤ 4096) (hev : bytes.length % 2 = 0) :
    rewriteLoop q bytes = (rewriteChunk q bytes, none) := by
  rw [rewriteLoop, if_neg hne, List.take_of_length_le hle,
    if_neg (by omega), List.drop_eq_nil_of_le hle, rewriteLoop, if_pos rfl]
  simp

/-! ## The file-level claims -/

/-- C6: any input file whose sample region (everything after byte 44) has
an odd byte count makes `normalizeWavFile` fail deterministically with the
FormatError "read odd number of bytes in int16 sample stream", before any
byte of the file is modified (the analyzer pass runs first and never
writes). -/
theorem C6_odd_byte_count (file : List ℕ) (t : ℚ)
    (hodd : (file.drop 44).length % 2 = 1) :
    normalizeWavFile file t = (file, .error oddMsg) := by
  unfold normalizeWavFile
  rw [analyzeLoop_odd (file.drop 44).length (file.drop 44) (0, 0, 0, 0) rfl hodd]

/-- Witness for C6 at the 45-byte file of zeros (one stray sample byte):
the FormatError is raised and the file is returned unmodified. -/
theorem C6_odd_byte_count_witness :
    normalizeWavFile (List.replicate 45 0) 3200 = (List.replicate 45 0, .error oddMsg) :=
  C6_odd_byte_count (List.replicate 45 0) 3200 (by simp)

/-- C10: whenever `normalizeWavFile` returns without error, the header
region (the first 44 bytes) and the total byte length of the file are
unchanged, and every rewritten chunk has exactly the byte count of the
chunk that was read (it is written back at the same offset by
construction of the in-place loop). -/
theorem C10_frame (file : List ℕ) (t : ℚ) (out : List ℕ) (ch : Bool)
    (h : normalizeWavFile file t = (out, .ok ch)) :
    out.take 44 = file.take 44 ∧ out.length = file.length ∧
    ∀ (q : ℚ) (chunk : List ℕ), (rewriteChunk q chunk).length = chunk.length := by
  unfold normalizeWavFile at h
  rcases hE : analyzeLoop (file.drop 44) (0, 0, 0, 0) with e | r
  · rw [hE] at h
    simp at h
  · obtain ⟨c, su, mn, mx⟩ := r
    simp only [hE] at h
    rcases hRL : rewriteLoop (resolveScale c su mn mx t) (file.drop 44) with ⟨data2, err⟩
    rcases err with _ | e
    · simp only [hRL] at h
      have hout : out = file.take 44 ++ data2 := by
        have := congrArg Prod.fst h
        simpa using this.symm
      have hXlen : data2.length = file.length - 44 := by
        have hl := rewriteLoop_length (resolveScale c su mn mx t) (file.drop 44).length
          (file.drop 44) rfl
        rw [hRL] at hl
        simpa [List.length_drop] using hl
      constructor
      · rw [hout, List.take_append_eq_append_take, List.take_take]
        rcases le_or_lt 44 file.length with hge | hlt
        · have h44 : (file.take 44).length = 44 := by
            rw [List.length_take]
            omega
          rw [h44]
          simp
        · have hX0 : data2 = [] := by
            rw [← List.length_eq_zero, hXlen]
            omega
          rw [hX0]
          simp [min_def]
      · constructor
        · rw [hout, List.length_append, hXlen, List.length_take]
          omega
        · exact fun q chunk => rewriteChunk_length q chunk
    · simp only [hRL] at h
      simp at h

/-- Witness for C10 at the 46-byte file holding the single sample `100`
with target `3200`: the rewrite succeeds (sample becomes `3200`, bytes
`[128, 12]`), the header and the length are unchanged. -/
theorem C10_frame_witness :
    (List.replicate 44 (0 : ℕ) ++ [128, 12]).take 44 =
      (List.replicate 44 (0 : ℕ) ++ [100, 0]).take 44 ∧
    (List.replicate 44 (0 : ℕ) ++ [128, 12]).length =
      (List.replicate 44 (0 : ℕ) ++ [100, 0]).length := by
  have hdrop : (List.replicate 44 (0 : ℕ) ++ [100, 0]).drop 44 = [100, 0] := by
    have h := List.drop_left (List.replicate 44 (0 : ℕ)) [100, 0]
    rwa [List.length_replicate] at h
  have htake : (List.replicate 44 (0 : ℕ) ++ [100, 0]).take 44 = List.replicate 44 0 := by
    have h := List.take_left (List.replicate 44 (0 : ℕ)) [100, 0]
    rwa [List.length_replicate] at h
  have hA : analyzeLoop [100, 0] (0, 0, 0, 0) = .ok (1, 100, 0, 100) := by
    rw [analyzeLoop_small _ _ (by simp) (by simp) (by simp)]
    simp [decodeSamples, i16ofU16, stepStats, toU64]
  have hscale : resolveScale 1 100 0 100 3200 = 32 := by
    simp [resolveScale, peakI16, negI16, wrapI16]
    norm_num
  have hRW : rewriteLoop 32 [100, 0] = ([128, 12], none) := by
    rw [rewriteLoop_small _ _ (by simp) (by simp) (by simp)]
    have hrs : rewriteSample 32 100 = 3200 := by
      simp [rewriteSample, truncQ, wrapI16]
      norm_num
    simp [rewriteChunk, i16ofU16, hrs, encodeSample]
  have heval : normalizeWavFile (List.replicate 44 0 ++ [100, 0]) 3200 =
      (List.replicate 44 0 ++ [128, 12], .ok true) := by
    unfold normalizeWavFile
    rw [hdrop]
    simp only [hA, hscale, hRW, htake]
  have h := C10_frame (List.replicate 44 0 ++ [100, 0]) 3200
    (List.replicate 44 0 ++ [128, 12]) true heval
  have h2 := h.1
  rw [htake] at h2
  refine ⟨?_, h.2.1⟩
  rw [htake, h2]

/-- C8 counterexample: `normalizeWavFile` (the current variant) has no
tolerance band.  On the file holding the single sample `3000` with target
`3200`, the computed scale is `16/15 ≈ 1.067`, inside the claimed band
`(0.9, 1.1)` — yet the file *is* rewritten (sample becomes `3200`, bytes
change from `[184, 11]` to `[128, 12]`) and the `changed` result is
`true`, not `false`. -/
theorem C8_tolerance_band_counterexample :
    (9 : ℚ) / 10 < resolveScale 1 3000 0 3000 3200 ∧
    resolveScale 1 3000 0 3000 3200 < 11 / 10 ∧
    analyzeLoop ((List.replicate 44 (0 : ℕ) ++ [184, 11]).drop 44) (0, 0, 0, 0) =
      .ok (1, 3000, 0, 3000) ∧
    normalizeWavFile (List.replicate 44 (0 : ℕ) ++ [184, 11]) 3200 =
      (List.replicate 44 (0 : ℕ) ++ [128, 12], .ok true) ∧
    (List.replicate 44 (0 : ℕ) ++ [128, 12] : List ℕ) ≠ List.replicate 44 (0 : ℕ) ++ [184, 11] := by
  have hdrop : (List.replicate 44 (0 : ℕ) ++ [184, 11]).drop 44 = [184, 11] := by
    have h := List.drop_left (List.replicate 44 (0 : ℕ)) [184, 11]
    rwa [List.length_replicate] at h
  have htake : (List.replicate 44 (0 : ℕ) ++ [184, 11]).take 44 = List.replicate 44 0 := by
    have h := List.take_left (List.replicate 44 (0 : ℕ)) [184, 11]
    rwa [List.length_replicate] at h
  have hA : analyzeLoop [184, 11] (0, 0, 0, 0) = .ok (1, 3000, 0, 3000) := by
    rw [analyzeLoop_small _ _ (by simp) (by simp) (by simp)]
    simp [decodeSamples, i16ofU16, stepStats, toU64]
  have hscale : resolveScale 1 3000 0 3000 3200 = 16 / 15 := by
    simp [resolveScale, peakI16, negI16, wrapI16]
    norm_num
  have hRW : rewriteLoop (16 / 15) [184, 11] = ([128, 12], none) := by
    rw [rewriteLoop_small _ _ (by simp) (by simp) (by simp)]
    have hrs : rewriteSample (16 / 15) 3000 = 3200 := by
      simp [rewriteSample, truncQ, wrapI16]
      norm_num
    simp [rewriteChunk, i16ofU16, hrs, encodeSample]
  refine ⟨by rw [hscale]; norm_num, by rw [hscale]; norm_num, by rw [hdrop]; exact hA, ?_, by simp⟩
  unfold normalizeWavFile
  rw [hdrop]
  simp only [hA, hscale, hRW, htake]

/-- C8 (amended): the current `normalizeWavFile` has no tolerance band —
whenever both passes succeed (any even sample region) it rewrites and
returns `changed = true`, whatever the computed scale.  The tolerance-band
skip belongs to the older variant kept next to the README: there, a
computed scale strictly inside `(0.9, 1.1)` returns `changed = false`
before the rewrite pass, leaving the file bytes untouched. -/
theorem C8_no_tolerance_band :
    (∀ (file : List ℕ) (t : ℚ), (file.drop 44).length % 2 = 0 →
      (normalizeWavFile file t).2 = .ok true) ∧
    (∀ (file : List ℕ) (c su : ℕ) (mn mx : ℤ),
      analyzeLoop (file.drop 44) (0, 0, 0, 0) = .ok (c, su, mn, mx) →
      9 / 10 < 1400 * (c : ℚ) / (su : ℚ) → 1400 * (c : ℚ) / (su : ℚ) < 11 / 10 →
      normalizeWavFileOld file = (file, .ok false)) := by
  constructor
  · intro file t hev
    obtain ⟨r, hr⟩ := analyzeLoop_even (file.drop 44).length (file.drop 44) (0, 0, 0, 0) rfl hev
    obtain ⟨c, su, mn, mx⟩ := r
    unfold normalizeWavFile
    simp only [hr]
    rcases hRL : rewriteLoop (resolveScale c su mn mx t) (file.drop 44) with ⟨d2, err⟩
    have herr : err = none := by
      have h := rewriteLoop_even (resolveScale c su mn mx t) (file.drop 44).length
        (file.drop 44) rfl hev
      rw [hRL] at h
      exact h
    subst herr
    simp only [hRL]
  · intro file c su mn mx hA hb1 hb2
    unfold normalizeWavFileOld
    simp only [hA]
    rw [if_pos ⟨hb1, hb2⟩]

/-- Witness for C8 (amended) at the file holding the single sample `1400`
(bytes `[120, 5]`): the current variant reports `changed = true`; the old
variant computes scale `1400/1400 = 1`, inside the band, and returns the
file unchanged with `changed = false`. -/
theorem C8_no_tolerance_band_witness :
    (normalizeWavFile (List.replicate 44 (0 : ℕ) ++ [120, 5]) 3200).2 = .ok true ∧
    normalizeWavFileOld (List.replicate 44 (0 : ℕ) ++ [120, 5]) =
      (List.replicate 44 (0 : ℕ) ++ [120, 5], .ok false) := by
  have hdrop : (List.replicate 44 (0 : ℕ) ++ [120, 5]).drop 44 = [120, 5] := by
    have h := List.drop_left (List.replicate 44 (0 : ℕ)) [120, 5]
    rwa [List.length_replicate] at h
  have hA : analyzeLoop [120, 5] (0, 0, 0, 0) = .ok (1, 1400, 0, 1400) := by
    rw [analyzeLoop_small _ _ (by simp) (by simp) (by simp)]
    simp [decodeSamples, i16ofU16, stepStats, toU64]
  constructor
  · exact C8_no_tolerance_band.1 (List.replicate 44 0 ++ [120, 5]) 3200 (by rw [hdrop]; simp)
  · refine C8_no_tolerance_band.2 (List.replicate 44 0 ++ [120, 5]) 1 1400 0 1400 ?_ ?_ ?_
    · rw [hdrop]
      exact hA
    · norm_num
    · norm_num
